import Mathlib

/-!
Shallow embedding of the input-processing and text-buffer core of the `fim`
terminal editor (Rust sources under `src/`): the `Key` event model
(`src/editor/key.rs`), the `Row` line buffer (`src/editor.rs`), the UTF-8
character decoder (`src/reader/decoder/utf8.rs`), the escape-sequence key
parser (`src/reader/key_stream.rs`), subsequence search (`src/utils.rs`),
and the editor-level search and file-loading loops (`src/editor.rs`).

Rust `String`s are modelled as `List Char`, machine integers as `Nat`
(with explicit `% 65536` where the code casts to `u16`), panics as
`Option`/`none`, and fallible operations as `Except`.
-/

namespace Fim

/-- Arrow-key directions (`src/editor/key.rs`, `Direction`). -/
inductive Direction
  | up
  | down
  | left
  | right
deriving DecidableEq, Repr

/-- Control keys (`src/editor/key.rs`, `ControlKey`). -/
inductive ControlKey
  | ctrl (c : Char)
  | alt (c : Char)
  | tab
  | lf
  | cr
  | escape
  | backspace
  | delete
  | home
  | endKey
  | pageUp
  | pageDown
  | insert
deriving DecidableEq, Repr

/-- Special keys (`src/editor/key.rs`, `SpecialKey`). -/
inductive SpecialKey
  | capsLock
  | numLock
  | scrollLock
  | printScreen
  | pauseBreak
  | menu
deriving DecidableEq, Repr

/-- Semantic key events (`src/editor/key.rs`, `Key`). -/
inductive Key
  | char (c : Char)
  | arrowKey (d : Direction)
  | functionKey (n : Nat)
  | controlKey (k : ControlKey)
  | specialKey (k : SpecialKey)
deriving DecidableEq, Repr

/-- Modelled from the spec: `Key::render` is called throughout `Row`
(`src/editor.rs`) but its definition is not among the given sources.
Per the spec's data model, a printable `Char` renders to itself, `Tab`
renders to a fixed-width run of space characters (the tab stop `tw`),
and every other control/arrow/function/special key renders to nothing. -/
def Key.render (tw : Nat) : Key → List Char
  | .char c => [c]
  | .controlKey .tab => List.replicate tw ' '
  | _ => []

/-- Modelled from the spec: `Key::get_display_width` is the number of
rendered characters the key occupies. -/
def Key.get_display_width (tw : Nat) (k : Key) : Nat :=
  (k.render tw).length

/-- A line of text: the raw key events in typed order plus the derived
rendered text (`src/editor.rs`, `struct Row`). -/
structure Row where
  raw : List Key
  rendered : List Char
deriving DecidableEq, Repr

/-- Total rendered width of a key sequence (the running accumulation both
`Row::get_raw_index` and `Row::get_render_index` perform). -/
def totalWidth (tw : Nat) (keys : List Key) : Nat :=
  (keys.map (Key.get_display_width tw)).sum

/-- The concatenation of each raw key's rendering, in order — the spec's
invariant relating `raw` to `rendered`. -/
def renderedOf (tw : Nat) (keys : List Key) : List Char :=
  (keys.map (Key.render tw)).flatten

/-- The loop body of `Row::render` (`src/editor.rs:74-99`): iterate over the
keys of `raw`, appending each key's rendering to the accumulator, except that
a `Backspace` key stops the whole loop if the accumulator is empty and
otherwise removes from its end as many characters as the width of the *last*
key of the whole `raw` sequence (`self.raw.last().unwrap()`); `wlast` is that
width, precomputed by the caller. -/
def Row.renderLoop (tw wlast : Nat) : List Key → List Char → List Char
  | [], acc => acc
  | k :: ks, acc =>
    match k with
    | .controlKey .backspace =>
      if acc = [] then acc
      else Row.renderLoop tw wlast ks (acc.take (acc.length - wlast))
    | _ => Row.renderLoop tw wlast ks (acc ++ k.render tw)

/-- `Row::render` (`src/editor.rs:74-99`) run on an initially empty
`rendered`, which is how `Row::new` invokes it. -/
def Row.render (tw : Nat) (raw : List Key) : List Char :=
  Row.renderLoop tw ((raw.getLast?.map (Key.get_display_width tw)).getD 0) raw []

/-- `Row::new` (`src/editor.rs:33-39`): store the raw keys and derive
`rendered` from them. -/
def Row.new (tw : Nat) (raw : List Key) : Row :=
  { raw := raw, rendered := Row.render tw raw }

/-- `Row::display_len` (`src/editor.rs:41-43`). -/
def Row.display_len (r : Row) : Nat :=
  r.rendered.length

/-- `Row::append` (`src/editor.rs:45-48`). -/
def Row.append (r other : Row) : Row :=
  { raw := r.raw ++ other.raw, rendered := r.rendered ++ other.rendered }

/-- `Row::raw_str` (`src/editor.rs:58-72`): reconstruct the literal text of
a key sequence — `Tab` becomes a literal tab character, `Char c` becomes
`c`, every other key contributes nothing. -/
def Row.raw_str : List Key → List Char
  | [] => []
  | .controlKey .tab :: ks => '\t' :: Row.raw_str ks
  | .char c :: ks => c :: Row.raw_str ks
  | _ :: ks => Row.raw_str ks

/-- `Row::raw` (`src/editor.rs:54-56`). -/
def Row.rawText (r : Row) : List Char :=
  Row.raw_str r.raw

/-- The accumulating walk of `Row::get_raw_index` (`src/editor.rs:137-147`):
`i` is the index of the head of `ks` in the full raw sequence and `cur` the
rendered width accumulated so far; return the index of the first key whose
cumulative width exceeds `renderIdx`, or the total number of keys. -/
def getRawIndexAux (tw renderIdx : Nat) : List Key → Nat → Nat → Nat
  | [], i, _ => i
  | k :: ks, i, cur =>
    if renderIdx < cur + k.get_display_width tw then i
    else getRawIndexAux tw renderIdx ks (i + 1) (cur + k.get_display_width tw)

/-- `Row::get_raw_index` (`src/editor.rs:137-147`). -/
def Row.get_raw_index (tw : Nat) (r : Row) (renderIdx : Nat) : Nat :=
  getRawIndexAux tw renderIdx r.raw 0 0

/-- `Row::get_render_index` (`src/editor.rs:118-127`): the rendered span of
the key at `rawIndex` — sum of the widths of all prior keys, plus that key's
own width. Indexing `raw[rawIndex]` out of bounds panics in Rust, modelled
as `none`. -/
def Row.get_render_index (tw : Nat) (r : Row) (rawIndex : Nat) : Option (Nat × Nat) :=
  match r.raw[rawIndex]? with
  | none => none
  | some k =>
    some (totalWidth tw (r.raw.take rawIndex),
      totalWidth tw (r.raw.take rawIndex) + k.get_display_width tw)

/-- `Row::push` (`src/editor.rs:129-135`): append a key unless it renders
to nothing. -/
def Row.push (tw : Nat) (r : Row) (k : Key) : Row :=
  if k.render tw = [] then r
  else { raw := r.raw ++ [k], rendered := r.rendered ++ k.render tw }

/-- `Row::backspace` (`src/editor.rs:101-116`). At or past the end: pop the
last raw key (panic — `none` — if `raw` is empty) and trim its width from
the end of `rendered`. Otherwise resolve `pos - 1` (usize underflow panics
when `pos = 0`) to a raw index, drain that key's rendered span and remove
the raw entry. Returns the removed width alongside the updated row. -/
def Row.backspace (tw : Nat) (r : Row) (pos : Nat) : Option (Row × Nat) :=
  if r.rendered.length ≤ pos then
    match r.raw.getLast? with
    | none => none
    | some k =>
      let w := k.get_display_width tw
      some ({ raw := r.raw.dropLast,
              rendered := r.rendered.take (r.rendered.length - w) }, w)
  else
    if pos = 0 then none
    else
      let i := r.get_raw_index tw (pos - 1)
      match r.get_render_index tw i with
      | none => none
      | some (s, e) =>
        if e ≤ r.rendered.length then
          some ({ raw := r.raw.eraseIdx i,
                  rendered := r.rendered.take s ++ r.rendered.drop e }, e - s)
        else none

/-- `Row::split` (`src/editor.rs:149-158`): at or past the end, the row is
unchanged and a fresh empty row is returned; otherwise the keys from the
resolved raw index onward move into a new, independently re-rendered row,
and this row's `rendered` is truncated to `pos` characters. -/
def Row.split (tw : Nat) (r : Row) (pos : Nat) : Row × Row :=
  if r.rendered.length ≤ pos then (r, Row.new tw [])
  else
    let i := r.get_raw_index tw pos
    ({ raw := r.raw.take i, rendered := r.rendered.take pos },
     Row.new tw (r.raw.drop i))

/-- `Row::insert` (`src/editor.rs:160-178`): a key rendering to nothing is
rejected (`false`); at or past the end the key is appended, otherwise the
raw sequence and the rendered text are spliced at the corresponding
positions. -/
def Row.insert (tw : Nat) (r : Row) (pos : Nat) (k : Key) : Row × Bool :=
  if r.rendered.length ≤ pos then
    if k.render tw = [] then (r, false)
    else ({ raw := r.raw ++ [k], rendered := r.rendered ++ k.render tw }, true)
  else
    if k.render tw = [] then (r, false)
    else
      let i := r.get_raw_index tw pos
      ({ raw := r.raw.insertIdx i k,
         rendered := r.rendered.take pos ++ k.render tw ++ r.rendered.drop pos },
       true)

/-- Errors of the reader pipeline (`src/error.rs`, `EditorError`), with the
constructors the decoder and key parser raise. String payloads are elided;
positions, offending bytes and sequence lengths are kept. -/
inductive DecodeErr
  | unexpectedEof (actual : Nat)
  | invalidEncoding (position : Nat) (invalidBytes : List Nat)
  | invalidSequence (length : Nat)
deriving DecidableEq, Repr

/-- `Utf8Decoder::calculate_byte_count` (`src/reader/decoder/utf8.rs:31-39`). -/
def calculate_byte_count (b : Nat) : Nat :=
  if b &&& 0x80 = 0 then 1
  else if b &&& 0xE0 = 0xC0 then 2
  else if b &&& 0xF0 = 0xE0 then 3
  else if b &&& 0xF8 = 0xF0 then 4
  else 0

/-- `Utf8Decoder::is_continuation_byte` (`src/reader/decoder/utf8.rs:42-44`). -/
def is_continuation_byte (b : Nat) : Bool :=
  b &&& 0xC0 = 0x80

/-- The continuation-byte loop of `Utf8Decoder::decode_char`
(`src/reader/decoder/utf8.rs:71-102`): read the next `n` continuation bytes,
failing with unexpected-end-of-input when the stream ends first and with an
encoding error (position and collected bytes) on a byte that is not
`10xxxxxx`; each good byte contributes its low six bits to the code point. -/
def readContinuations (point pos : Nat) (collected : List Nat) :
    Nat → List Nat → Except DecodeErr (Nat × List Nat × List Nat)
  | 0, bs => .ok (point, collected, bs)
  | _ + 1, [] => .error (.unexpectedEof pos)
  | n + 1, b :: bs =>
    if is_continuation_byte b then
      readContinuations ((point <<< 6) ||| (b &&& 0x3F)) (pos + 1) (collected ++ [b]) n bs
    else .error (.invalidEncoding pos (collected ++ [b]))

/-- `Utf8Decoder::decode_char` (`src/reader/decoder/utf8.rs:47-133`) over a
byte list: `ok none` is end of stream; otherwise the decoded scalar and the
remaining bytes of the stream. -/
def utf8DecodeChar : List Nat → Except DecodeErr (Option (Char × List Nat))
  | [] => .ok none
  | b :: bs =>
    let count := calculate_byte_count b
    if count = 1 then .ok (some (Char.ofNat b, bs))
    else if 1 < count then
      match readContinuations (b &&& (0xFF >>> (count + 1))) 1 [b] (count - 1) bs with
      | .error e => .error e
      | .ok (point, collected, rest) =>
        if Nat.isValidChar point then .ok (some (Char.ofNat point, rest))
        else .error (.invalidEncoding 0 collected)
    else .error (.invalidEncoding 0 [b])

/-- `KeyStream::ctrl_key_reverse` (`src/reader/key_stream.rs:237-253`);
the Rust `as u8` cast is the `% 256`. -/
def ctrl_key_reverse (c : Char) : Option Char :=
  let n := c.toNat % 256
  if n = 0 then some '@'
  else if n ≤ 26 then some (Char.ofNat (n - 1 + 'a'.toNat))
  else if n = 27 then some '['
  else if n = 28 then some '\\'
  else if n = 29 then some ']'
  else if n = 30 then some '^'
  else if n = 31 then some '_'
  else none

/-- `KeyStream::convert_char_to_key` (`src/reader/key_stream.rs:220-234`).
The `unwrap` on `ctrl_key_reverse` cannot fail on the guarded range and is
modelled by `getD`. -/
def convert_char_to_key (c : Char) : Key :=
  if c = '\u001B' then .controlKey .escape
  else if c = '\u000D' then .controlKey .cr
  else if c = '\u000A' then .controlKey .lf
  else if c = '\u0009' then .controlKey .tab
  else if c = '\u007F' then .controlKey .delete
  else if c.toNat ≤ 0x1F then .controlKey (.ctrl ((ctrl_key_reverse c).getD '@'))
  else .char c

/-- `KeyStream::parse_csi_with_number` (`src/reader/key_stream.rs:186-218`):
`ESC [ <digits> ~` resolved through the lookup table; an unknown number is
an invalid-sequence error. -/
def parse_csi_with_number (s : List Char) : Except DecodeErr (Option Key) :=
  if s.length < 4 ∨ s.getLast? ≠ some '~' then .ok none
  else
    match (s.drop 2).take (s.length - 3) with
    | ['1'] => .ok (some (.controlKey .home))
    | ['2'] => .ok (some (.controlKey .insert))
    | ['3'] => .ok (some (.controlKey .delete))
    | ['4'] => .ok (some (.controlKey .endKey))
    | ['5'] => .ok (some (.controlKey .pageUp))
    | ['6'] => .ok (some (.controlKey .pageDown))
    | ['1', '1'] => .ok (some (.functionKey 1))
    | ['1', '2'] => .ok (some (.functionKey 2))
    | ['1', '3'] => .ok (some (.functionKey 3))
    | ['1', '4'] => .ok (some (.functionKey 4))
    | ['1', '5'] => .ok (some (.functionKey 5))
    | ['1', '7'] => .ok (some (.functionKey 6))
    | ['1', '8'] => .ok (some (.functionKey 7))
    | ['1', '9'] => .ok (some (.functionKey 8))
    | ['2', '0'] => .ok (some (.functionKey 9))
    | ['2', '1'] => .ok (some (.functionKey 10))
    | ['2', '3'] => .ok (some (.functionKey 11))
    | ['2', '4'] => .ok (some (.functionKey 12))
    | _ => .error (.invalidSequence s.length)

/-- `KeyStream::parse_csi_sequence` (`src/reader/key_stream.rs:142-161`). -/
def parse_csi_sequence (s : List Char) : Except DecodeErr (Option Key) :=
  match s with
  | _ :: _ :: c :: _ =>
    if c = 'A' then .ok (some (.arrowKey .up))
    else if c = 'B' then .ok (some (.arrowKey .down))
    else if c = 'C' then .ok (some (.arrowKey .right))
    else if c = 'D' then .ok (some (.arrowKey .left))
    else if c = 'H' then .ok (some (.controlKey .home))
    else if c = 'F' then .ok (some (.controlKey .endKey))
    else if '0' ≤ c ∧ c ≤ '9' then parse_csi_with_number s
    else .error (.invalidSequence s.length)
  | _ => .ok none

/-- `KeyStream::parse_ss3_key` (`src/reader/key_stream.rs:163-178`). -/
def parse_ss3_key (s : List Char) : Except DecodeErr (Option Key) :=
  match s with
  | [_, _, c] =>
    if c = 'P' then .ok (some (.functionKey 1))
    else if c = 'Q' then .ok (some (.functionKey 2))
    else if c = 'R' then .ok (some (.functionKey 3))
    else if c = 'S' then .ok (some (.functionKey 4))
    else .error (.invalidSequence 3)
  | _ => .ok none

/-- `KeyStream::parse_escape_sequence` (`src/reader/key_stream.rs:126-140`). -/
def parse_escape_sequence (s : List Char) : Except DecodeErr (Option Key) :=
  match s with
  | _ :: c :: _ =>
    if c = '[' then parse_csi_sequence s
    else if c = 'O' then parse_ss3_key s
    else .error (.invalidSequence s.length)
  | _ => .ok none

/-- The Collecting loop of `KeyStream::process_escape`
(`src/reader/key_stream.rs:77-124`) over the remaining bytes. Returns the
resolved key (with an empty flush), or `none` together with the buffered
characters to flush as literal keys and the unconsumed bytes. The 10 ms
timeout race against the next read is modelled as the timeout elapsing
exactly when no further input is available; a peeked ESC abandons the cycle
without consuming the byte. A decode failure inside the loop also abandons
the cycle (the offending bytes are left in place, which no theorem below
depends on). `fuel` exceeding the byte count makes the fuel case
unreachable. -/
def processEscapeLoop : Nat → List Char → List Nat → Option Key × List Char × List Nat
  | 0, seq, bytes => (none, seq, bytes)
  | fuel + 1, seq, bytes =>
    match bytes with
    | [] => (none, seq, bytes)
    | b :: _ =>
      if b = 0x1B then (none, seq, bytes)
      else
        match utf8DecodeChar bytes with
        | .error _ => (none, seq, bytes)
        | .ok none => (none, seq, bytes)
        | .ok (some (c, rest)) =>
          let seq' := seq ++ [c]
          if seq'.length = 16 then (none, seq', rest)
          else
            match parse_escape_sequence seq' with
            | .error _ => (none, seq', rest)
            | .ok none => processEscapeLoop fuel seq' rest
            | .ok (some k) => (some k, [], rest)

/-- The state of a `KeyStream` (`src/reader/key_stream.rs:29-33`): the queue
of already-parsed keys and the bytes not yet decoded. -/
structure StreamState where
  buffer : List Key
  bytes : List Nat
deriving DecidableEq, Repr

/-- `KeyStream::next_key` (`src/reader/key_stream.rs:55-74`): drain the key
buffer first; otherwise decode one character, convert it directly unless it
is ESC, in which case run the Collecting cycle and flush abandoned
characters as literal keys. `ok (none, _)` is end of input. -/
def next_key (st : StreamState) : Except DecodeErr (Option Key × StreamState) :=
  match st.buffer with
  | k :: rest => .ok (some k, ⟨rest, st.bytes⟩)
  | [] =>
    match utf8DecodeChar st.bytes with
    | .error e => .error e
    | .ok none => .ok (none, st)
    | .ok (some (c, rest)) =>
      if c = '\u001B' then
        match processEscapeLoop (rest.length + 1) ['\u001B'] rest with
        | (some k, _, rest') => .ok (some k, ⟨[], rest'⟩)
        | (none, seq, rest') =>
          match seq.map convert_char_to_key with
          | [] => .ok (none, ⟨[], rest'⟩)
          | k :: ks => .ok (some k, ⟨ks, rest'⟩)
      else .ok (some (convert_char_to_key c), ⟨[], rest⟩)

/-- Repeatedly call `next_key` (as the editor loops do), collecting the
produced keys until end of input; `fuel` bounds the number of calls and is
taken large enough in every use below. -/
def runKeys : Nat → StreamState → Except DecodeErr (List Key)
  | 0, _ => .ok []
  | fuel + 1, st =>
    match next_key st with
    | .error e => .error e
    | .ok (none, _) => .ok []
    | .ok (some k, st') =>
      match runKeys fuel st' with
      | .error e => .error e
      | .ok ks => .ok (k :: ks)

/-- `find_subsequence` (`src/utils.rs:68-78`): index of the first window of
`haystack` equal to `needle`; an empty needle matches at 0. -/
def find_subsequence (haystack needle : List Key) : Option Nat :=
  if needle.length = 0 then some 0
  else
    (List.range (haystack.length + 1 - needle.length)).find?
      (fun i => decide ((haystack.drop i).take needle.length = needle))

/-- Cursor/viewport state of the editor (`src/editor.rs:195-224`): `cy`,`cx`
are `u16` in Rust, the offsets `usize`, `max_row`,`max_col` `u16`; all are
modelled as `Nat`, with `% 65536` inserted where the code casts to `u16`. -/
structure EditorState where
  cy : Nat
  cx : Nat
  row_offset : Nat
  col_offset : Nat
  max_row : Nat
  max_col : Nat
deriving DecidableEq, Repr

/-- The offset adjustment `Editor::search` performs on one axis
(`src/editor.rs:419-428`): `off` is the current offset (`usize`), `maxv`
the viewport extent (a `u16` field, so below 65536), `c` the new cursor
coordinate (already reduced to a `u16` value). If the cursor is left of
the viewport the offset snaps to it; otherwise the source computes the
`u16` sum `off as u16 + maxv`, which overflows when it reaches 65536 —
a panic in debug builds (release builds would wrap instead), modelled as
`none`; if the cursor is at or beyond that edge the offset becomes
`c - maxv + 1` in `usize` arithmetic (no underflow: in this branch
`c ≥ off + maxv ≥ maxv`); otherwise the offset is untouched. -/
def adjust_offset (off maxv c : Nat) : Option Nat :=
  if c < off % 65536 then some c
  else if 65536 ≤ off % 65536 + maxv then none
  else if off % 65536 + maxv ≤ c then some (c - maxv + 1)
  else some off

/-- The row loop of `Editor::search` (`src/editor.rs:414-433`), with `i` the
index of the head of the remaining rows. On the first row containing the
query, the cursor moves there (`u16` casts appear as `% 65536`) and the two
offsets are adjusted in source order via `adjust_offset`. The outer `none`
models a panic of one of the source's `u16` sums; `some none` models
`Err(EditorError::NotFound)`, in which case the source has not touched any
field; `some (some st')` is the successful return. -/
def search_aux (query : List Key) (st : EditorState) :
    List Row → Nat → Option (Option EditorState)
  | [], _ => some none
  | r :: rs, i =>
    match find_subsequence r.raw query with
    | none => search_aux query st rs (i + 1)
    | some pos =>
      let cy := i % 65536
      let cx := pos % 65536
      match adjust_offset st.row_offset st.max_row cy with
      | none => none
      | some ro =>
        match adjust_offset st.col_offset st.max_col cx with
        | none => none
        | some co =>
          some (some { st with cy := cy, cx := cx, row_offset := ro, col_offset := co })

/-- `Editor::search` (`src/editor.rs:414-433`). -/
def Editor.search (rows : List Row) (query : List Key) (st : EditorState) :
    Option (Option EditorState) :=
  search_aux query st rows 0

/-- The row-building loop of `Editor::open_file` (`src/editor.rs:568-580`)
over the decoded key sequence: `CR` keys are skipped, an `LF` key turns the
accumulated `keyLine` into a `Row`, and any other key joins the current
line; whatever remains in `keyLine` when the keys run out is dropped. -/
def open_file_rows (tw : Nat) : List Key → List Key → List Row
  | [], _ => []
  | k :: ks, keyLine =>
    if k = Key.controlKey ControlKey.cr then open_file_rows tw ks keyLine
    else if k = Key.controlKey ControlKey.lf then
      Row.new tw keyLine :: open_file_rows tw ks []
    else open_file_rows tw ks (keyLine ++ [k])

/-- Splitting a key sequence at its `LF` keys, as the spec describes file
loading: the first component lists the `LF`-terminated lines in order (with
`CR` keys dropped), the second holds the trailing keys after the last `LF`
(the unterminated final line). -/
def split_lines : List Key → List (List Key) × List Key
  | [] => ([], [])
  | k :: ks =>
    let r := split_lines ks
    if k = Key.controlKey ControlKey.cr then r
    else if k = Key.controlKey ControlKey.lf then ([] :: r.1, r.2)
    else
      match r.1 with
      | [] => ([], k :: r.2)
      | l :: ls => ((k :: l) :: ls, r.2)

/-- Whether a key is a printable character key or the Tab key — the key
sorts C3's round-trip claim ranges over. -/
def isCharOrTab : Key → Bool
  | .char _ => true
  | .controlKey .tab => true
  | _ => false

/-- The literal text a sequence of typed keys stands for: each printable
`Char` key is that character and each `Tab` key is a literal tab
character; keys of other sorts carry no literal text. -/
def literalText : List Key → List Char
  | [] => []
  | .char c :: ks => c :: literalText ks
  | .controlKey .tab :: ks => '\t' :: literalText ks
  | _ :: ks => literalText ks

/-- What C9 requires of a completed search: the `u16` sums never overflow
(no panic, the outer `none`); on `some none` (not found) no row contains
the query (and the state was never touched); on `some (some st')` the
cursor names the first matching row and the position of the match in its
raw key sequence, and both offsets have been adjusted so the cursor lies
inside the viewport. -/
def searchSpec (rows : List Row) (query : List Key) (st : EditorState) :
    Option (Option EditorState) → Prop
  | none => False
  | some none => ∀ r ∈ rows, find_subsequence r.raw query = none
  | some (some st') =>
    ∃ r, rows[st'.cy]? = some r ∧
      find_subsequence r.raw query = some st'.cx ∧
      (∀ j, j < st'.cy → ∀ r', rows[j]? = some r' →
        find_subsequence r'.raw query = none) ∧
      st'.row_offset ≤ st'.cy ∧ st'.cy < st'.row_offset + st.max_row ∧
      st'.col_offset ≤ st'.cx ∧ st'.cx < st'.col_offset + st.max_col ∧
      st'.max_row = st.max_row ∧ st'.max_col = st.max_col

/-- A render boundary of a key sequence: a rendered position that is the
total width of some prefix of the keys, i.e. not strictly inside the
rendered span of any key. Cursor positions the editor produces are of
this form. -/
def isBoundary (tw : Nat) (keys : List Key) (p : Nat) : Prop :=
  ∃ i, i ≤ keys.length ∧ p = totalWidth tw (keys.take i)

theorem raw_str_eq_literalText : ∀ ks : List Key, Row.raw_str ks = literalText ks := by
  intro ks
  induction ks with
  | nil => rfl
  | cons k ks ih =>
    cases k with
    | char c => simpa [Row.raw_str, literalText] using ih
    | controlKey ck => cases ck <;> simpa [Row.raw_str, literalText] using ih
    | arrowKey d => simpa [Row.raw_str, literalText] using ih
    | functionKey n => simpa [Row.raw_str, literalText] using ih
    | specialKey sk => simpa [Row.raw_str, literalText] using ih

theorem length_literalText_of_isCharOrTab :
    ∀ ks : List Key, (∀ k ∈ ks, isCharOrTab k = true) →
      (literalText ks).length = ks.length := by
  intro ks
  induction ks with
  | nil => intro _; rfl
  | cons k ks ih =>
    intro h
    have hk := h k (List.mem_cons_self k ks)
    have hks : ∀ k' ∈ ks, isCharOrTab k' = true := fun k' hk' => h k' (List.mem_cons_of_mem k hk')
    cases k with
    | char c => simpa [literalText] using ih hks
    | controlKey ck =>
      cases ck <;> simp_all [isCharOrTab, literalText]
    | arrowKey d => simp [isCharOrTab] at hk
    | functionKey n => simp [isCharOrTab] at hk
    | specialKey sk => simp [isCharOrTab] at hk

/-- C3: a Row built from a sequence of printable-`Char` and `Tab` keys
reconstructs, through `Row::raw`, exactly the literal text of those keys —
one character per key, with each `Tab` restored as a literal tab character
rather than as spaces. -/
theorem row_raw_round_trip (tw : Nat) (keys : List Key)
    (h : ∀ k ∈ keys, isCharOrTab k = true) :
    Row.rawText (Row.new tw keys) = literalText keys ∧
    (literalText keys).length = keys.length := by
  constructor
  · show Row.raw_str keys = literalText keys
    exact raw_str_eq_literalText keys
  · exact length_literalText_of_isCharOrTab keys h

/-- Witness for C3 at the key sequence `a`, `Tab`, `b`. -/
theorem row_raw_round_trip_witness :
    Row.rawText (Row.new 4 [Key.char 'a', Key.controlKey ControlKey.tab, Key.char 'b']) =
      literalText [Key.char 'a', Key.controlKey ControlKey.tab, Key.char 'b'] ∧
    (literalText [Key.char 'a', Key.controlKey ControlKey.tab, Key.char 'b']).length =
      ([Key.char 'a', Key.controlKey ControlKey.tab, Key.char 'b'] : List Key).length :=
  row_raw_round_trip 4 _ (by decide)

theorem totalWidth_nil (tw : Nat) : totalWidth tw [] = 0 := rfl

theorem totalWidth_cons (tw : Nat) (k : Key) (ks : List Key) :
    totalWidth tw (k :: ks) = k.get_display_width tw + totalWidth tw ks := by
  simp [totalWidth]

/-- When the target position lies at or beyond the total remaining width,
the walk of `get_raw_index` runs off the end and returns the number of
keys. -/
theorem getRawIndexAux_eq_length (tw p : Nat) :
    ∀ (ks : List Key) (i cur : Nat), cur + totalWidth tw ks ≤ p →
      getRawIndexAux tw p ks i cur = i + ks.length := by
  intro ks
  induction ks with
  | nil => intro i cur _; simp [getRawIndexAux]
  | cons k ks ih =>
    intro i cur h
    rw [totalWidth_cons] at h
    have hw : ¬ p < cur + k.get_display_width tw := by omega
    rw [getRawIndexAux, if_neg hw, ih (i + 1) (cur + k.get_display_width tw) (by omega)]
    simp [Nat.add_comm, Nat.add_assoc, Nat.add_left_comm]

/-- When the target position lies strictly inside the remaining total
width, the walk of `get_raw_index` stops at the key whose rendered span
contains the position. -/
theorem getRawIndexAux_span (tw p : Nat) :
    ∀ (ks : List Key) (i cur : Nat), cur ≤ p → p < cur + totalWidth tw ks →
      ∃ j k, ks[j]? = some k ∧
        getRawIndexAux tw p ks i cur = i + j ∧
        cur + totalWidth tw (ks.take j) ≤ p ∧
        p < cur + totalWidth tw (ks.take j) + k.get_display_width tw := by
  intro ks
  induction ks with
  | nil =>
    intro i cur hle hlt
    rw [totalWidth_nil] at hlt
    omega
  | cons k ks ih =>
    intro i cur hle hlt
    rw [totalWidth_cons] at hlt
    by_cases hw : p < cur + k.get_display_width tw
    · refine ⟨0, k, by simp, ?_, ?_, ?_⟩
      · rw [getRawIndexAux, if_pos hw]; omega
      · simpa [totalWidth_nil] using hle
      · simpa [totalWidth_nil] using hw
    · obtain ⟨j, k', hj, hres, hlo, hhi⟩ :=
        ih (i + 1) (cur + k.get_display_width tw) (by omega) (by omega)
      refine ⟨j + 1, k', by simpa using hj, ?_, ?_, ?_⟩
      · rw [getRawIndexAux, if_neg hw, hres]; omega
      · simp only [List.take_succ_cons, totalWidth_cons]
        omega
      · simp only [List.take_succ_cons, totalWidth_cons]
        omega

/-- C2: composing the index maps. For a Row whose rendered length agrees
with the total width of its raw keys (the data-model invariant), every
position `p` strictly below `display_len` resolves through
`get_raw_index` to a key whose `get_render_index` span `(s, e)` satisfies
`s ≤ p < e`, while `p = display_len` resolves to `raw.len()`, the append
position. -/
theorem raw_render_index_round_trip (tw : Nat) (r : Row) (p : Nat)
    (hinv : r.rendered.length = totalWidth tw r.raw) :
    (p < r.display_len →
      ∃ s e, r.get_render_index tw (r.get_raw_index tw p) = some (s, e) ∧
        s ≤ p ∧ p < e) ∧
    (p = r.display_len → r.get_raw_index tw p = r.raw.length) := by
  constructor
  · intro hp
    have hp' : p < totalWidth tw r.raw := by
      have := r.display_len
      unfold Row.display_len at hp
      omega
    obtain ⟨j, k, hj, hres, hlo, hhi⟩ :=
      getRawIndexAux_span tw p r.raw 0 0 (Nat.zero_le p) (by simpa using hp')
    refine ⟨totalWidth tw (r.raw.take j),
      totalWidth tw (r.raw.take j) + k.get_display_width tw, ?_, by omega, by omega⟩
    unfold Row.get_raw_index
    rw [hres]
    unfold Row.get_render_index
    simp [hj]
  · intro hp
    unfold Row.get_raw_index
    rw [getRawIndexAux_eq_length tw p r.raw 0 0 (by
      unfold Row.display_len at hp
      omega)]
    omega

/-- Witness for C2 on the single-Tab row (tab width 4): position 2 lies in
the span `(0, 4)` of the Tab key, and position 4 (= `display_len`) maps to
`raw.len() = 1`. -/
theorem raw_render_index_round_trip_witness :
    (∃ s e,
      (Row.new 4 [Key.controlKey ControlKey.tab]).get_render_index 4
          ((Row.new 4 [Key.controlKey ControlKey.tab]).get_raw_index 4 2) = some (s, e) ∧
        s ≤ 2 ∧ 2 < e) ∧
    (Row.new 4 [Key.controlKey ControlKey.tab]).get_raw_index 4 4 =
      (Row.new 4 [Key.controlKey ControlKey.tab]).raw.length := by
  constructor
  · exact (raw_render_index_round_trip 4 (Row.new 4 [Key.controlKey ControlKey.tab]) 2
      (by decide)).1 (by decide)
  · exact (raw_render_index_round_trip 4 (Row.new 4 [Key.controlKey ControlKey.tab]) 4
      (by decide)).2 (by decide)

/-- C1: the rendered/raw invariant does NOT survive `Row::split` at a
position strictly inside a multi-column key's span. Splitting the row
holding a single Tab (tab width 4) at position 2 leaves the left row with
an empty raw sequence but two residual space characters in `rendered`, so
`rendered` is no longer the concatenation of its raw keys' renderings —
the code contradicts the spec's stated invariant. -/
theorem split_inside_tab_breaks_render_invariant :
    (Row.split 4 (Row.new 4 [Key.controlKey ControlKey.tab]) 2).1.raw = [] ∧
    (Row.split 4 (Row.new 4 [Key.controlKey ControlKey.tab]) 2).1.rendered = [' ', ' '] ∧
    (Row.split 4 (Row.new 4 [Key.controlKey ControlKey.tab]) 2).1.rendered ≠
      renderedOf 4 (Row.split 4 (Row.new 4 [Key.controlKey ControlKey.tab]) 2).1.raw := by
  refine ⟨rfl, rfl, ?_⟩
  decide

/-- C4: decoding `[0x41, 0xE4, 0xB8, 0xAD]` yields `'A'` and then the
single 3-byte CJK character U+4E2D, while decoding `[0xC0]` alone fails
with an unexpected-end-of-input error. -/
theorem utf8_decode_examples :
    utf8DecodeChar [0x41, 0xE4, 0xB8, 0xAD] = .ok (some ('A', [0xE4, 0xB8, 0xAD])) ∧
    utf8DecodeChar [0xE4, 0xB8, 0xAD] = .ok (some ('中', [])) ∧
    utf8DecodeChar [0xC0] = .error (.unexpectedEof 1) := by
  refine ⟨?_, ?_, ?_⟩ <;> rfl

/-- C5: the byte stream `ESC ESC` yields exactly two `ControlKey(Escape)`
events, and the first Collecting cycle is abandoned by the peek that sees
the second ESC without consuming it (the flushed buffer is the lone first
ESC and the second ESC byte is still unread afterwards). -/
theorem esc_esc_two_escape_keys :
    runKeys 3 ⟨[], [0x1B, 0x1B]⟩ =
      .ok [.controlKey .escape, .controlKey .escape] ∧
    processEscapeLoop 2 ['\u001B'] [0x1B] = (none, ['\u001B'], [0x1B]) := by
  exact ⟨rfl, rfl⟩

/-- C6: `ESC [ 1 5 ~` parses to the single event `FunctionKey(5)`;
`ESC [ 9 9 ~` hits the lookup-table miss, which is an invalid-sequence
error inside the parser, after which the five buffered characters are
re-emitted in order as the literal keys Escape, '[', '9', '9', '~'. -/
theorem csi_number_keys :
    runKeys 2 ⟨[], [0x1B, 0x5B, 0x31, 0x35, 0x7E]⟩ = .ok [.functionKey 5] ∧
    parse_escape_sequence ['\u001B', '[', '9', '9', '~'] =
      .error (.invalidSequence 5) ∧
    runKeys 6 ⟨[], [0x1B, 0x5B, 0x39, 0x39, 0x7E]⟩ =
      .ok [.controlKey .escape, .char '[', .char '9', .char '9', .char '~'] := by
  refine ⟨?_, ?_, ?_⟩ <;> rfl

/-- C7, counterexample: inserting `'x'` at position 1 of the row `"ab"` and
then calling `backspace` at that same position 1 does not restore the row —
it deletes the key before the insertion point, leaving `"xb"`. -/
theorem insert_backspace_same_position_fails :
    (Row.insert 4 ⟨[Key.char 'a', Key.char 'b'], ['a', 'b']⟩ 1 (Key.char 'x')).2 = true ∧
    Row.backspace 4
        (Row.insert 4 ⟨[Key.char 'a', Key.char 'b'], ['a', 'b']⟩ 1 (Key.char 'x')).1 1 =
      some (⟨[Key.char 'x', Key.char 'b'], ['x', 'b']⟩, 1) ∧
    (⟨[Key.char 'x', Key.char 'b'], ['x', 'b']⟩ : Row) ≠
      ⟨[Key.char 'a', Key.char 'b'], ['a', 'b']⟩ := by
  refine ⟨rfl, ?_, ?_⟩ <;> decide

/-- C8, counterexample: a file whose decoded key sequence is the single key
`Char 'a'` with no terminating `LF` loads as zero rows — the final
unterminated line does not become a Row, contrary to the claim. -/
theorem open_file_drops_unterminated_line :
    open_file_rows 4 [Key.char 'a'] [] = [] ∧
    open_file_rows 4 [Key.char 'a'] [] ≠ [Row.new 4 [Key.char 'a']] := by
  refine ⟨rfl, ?_⟩
  decide

theorem totalWidth_append (tw : Nat) (a b : List Key) :
    totalWidth tw (a ++ b) = totalWidth tw a + totalWidth tw b := by
  simp [totalWidth]

theorem totalWidth_take_succ (tw : Nat) (ks : List Key) (j : Nat) (k : Key)
    (hj : ks[j]? = some k) :
    totalWidth tw (ks.take (j + 1)) = totalWidth tw (ks.take j) + k.get_display_width tw := by
  rw [List.take_succ, hj, totalWidth_append]
  simp [totalWidth_cons, totalWidth_nil]

theorem totalWidth_take_le (tw : Nat) (ks : List Key) (n : Nat) :
    totalWidth tw (ks.take n) ≤ totalWidth tw ks := by
  conv_rhs => rw [← List.take_append_drop n ks]
  rw [totalWidth_append]
  omega

/-- C10: `Row::backspace` panics exactly outside its implicit precondition.
With a non-empty rendered string, `backspace(0)` fails (the position is
decremented below zero before index resolution); on the empty Row every
call pops from an empty raw sequence and fails; and under the data-model
invariant, any call with `1 ≤ pos ≤ display_len` — the region the editor's
guard (`cx != 0`, row present) restricts to — succeeds. -/
theorem backspace_panic_conditions (tw : Nat) :
    (∀ r : Row, r.rendered ≠ [] → Row.backspace tw r 0 = none) ∧
    (∀ pos : Nat, Row.backspace tw ⟨[], []⟩ pos = none) ∧
    (∀ (r : Row) (pos : Nat), r.rendered.length = totalWidth tw r.raw →
      pos ≠ 0 → pos ≤ r.rendered.length → (Row.backspace tw r pos).isSome = true) := by
  refine ⟨?_, ?_, ?_⟩
  · intro r hr
    have hlen : ¬ r.rendered.length ≤ 0 := by
      simpa [Nat.pos_iff_ne_zero, List.length_eq_zero] using hr
    unfold Row.backspace
    rw [if_neg hlen, if_pos rfl]
  · intro pos
    simp [Row.backspace]
  · intro r pos hinv hpos hle
    by_cases hend : r.rendered.length ≤ pos
    · have hraw : r.raw ≠ [] := by
        intro hnil
        rw [hnil, totalWidth_nil] at hinv
        omega
      unfold Row.backspace
      rw [if_pos hend]
      obtain ⟨k, hk⟩ := Option.isSome_iff_exists.mp (List.getLast?_isSome.mpr hraw)
      rw [hk]
      simp
    · have hlt : pos < r.rendered.length := by omega
      have hp : pos - 1 < totalWidth tw r.raw := by omega
      obtain ⟨j, k, hj, hres, hlo, hhi⟩ :=
        getRawIndexAux_span tw (pos - 1) r.raw 0 0 (Nat.zero_le _) (by simpa using hp)
      unfold Row.backspace
      rw [if_neg hend, if_neg hpos]
      have hidx : r.get_raw_index tw (pos - 1) = j := by
        unfold Row.get_raw_index
        omega
      have hle' : totalWidth tw (r.raw.take j) + k.get_display_width tw ≤ r.rendered.length := by
        rw [← totalWidth_take_succ tw r.raw j k hj, hinv]
        exact totalWidth_take_le tw r.raw (j + 1)
      simp [Row.get_render_index, hidx, hj, hle']

/-- Witness for C10: `backspace(0)` on the one-character row fails; any
`backspace` on the empty row fails; `backspace(1)` on the one-character
row succeeds. -/
theorem backspace_panic_conditions_witness :
    Row.backspace 4 ⟨[Key.char 'a'], ['a']⟩ 0 = none ∧
    Row.backspace 4 ⟨[], []⟩ 3 = none ∧
    (Row.backspace 4 ⟨[Key.char 'a'], ['a']⟩ 1).isSome = true :=
  ⟨(backspace_panic_conditions 4).1 _ (by decide),
   (backspace_panic_conditions 4).2.1 3,
   (backspace_panic_conditions 4).2.2 _ 1 (by decide) (by decide) (by decide)⟩

theorem open_file_rows_eq_aux (tw : Nat) :
    ∀ keys acc : List Key,
      open_file_rows tw keys acc =
        match (split_lines keys).1 with
        | [] => []
        | l :: ls => Row.new tw (acc ++ l) :: ls.map (Row.new tw) := by
  intro keys
  induction keys with
  | nil => intro acc; rfl
  | cons k ks ih =>
    intro acc
    by_cases hcr : k = Key.controlKey ControlKey.cr
    · subst hcr
      simp only [open_file_rows, split_lines, if_pos rfl]
      exact ih acc
    · by_cases hlf : k = Key.controlKey ControlKey.lf
      · subst hlf
        simp only [open_file_rows, split_lines, if_neg hcr, if_pos rfl]
        rw [ih []]
        cases hs : (split_lines ks).1 with
        | nil => simp
        | cons l ls => simp
      · simp only [open_file_rows, split_lines, if_neg hcr, if_neg hlf]
        rw [ih (acc ++ [k])]
        cases hs : (split_lines ks).1 with
        | nil => simp
        | cons l ls => simp

/-- C8, amended: loading splits the decoded key sequence at each `LF` key
and drops every `CR` key, building exactly one Row per `LF`-terminated
line, in order; the keys after the last `LF` (a final line not terminated
by `LF`) are discarded and become no Row. -/
theorem open_file_rows_lf_lines (tw : Nat) (keys : List Key) :
    open_file_rows tw keys [] = ((split_lines keys).1).map (Row.new tw) := by
  rw [open_file_rows_eq_aux tw keys []]
  cases h : (split_lines keys).1 with
  | nil => rfl
  | cons l ls => simp

theorem find_subsequence_some_lt (haystack needle : List Key) (pos : Nat)
    (hne : needle ≠ []) (h : find_subsequence haystack needle = some pos) :
    pos < haystack.length := by
  unfold find_subsequence at h
  rw [if_neg (by simpa [List.length_eq_zero] using hne)] at h
  have hmem := List.mem_of_find?_eq_some h
  have hlen : 1 ≤ needle.length := by
    cases needle with
    | nil => exact absurd rfl hne
    | cons a l => simp
  have := List.mem_range.mp hmem
  omega

/-- In the overflow-free region (`off + maxv` fits in `u16`, viewport at
least one cell) the offset adjustment of `Editor::search` never panics and
leaves the cursor coordinate inside the viewport. -/
theorem adjust_offset_some (off maxv c : Nat) (hov : off + maxv < 65536) (hm : 1 ≤ maxv) :
    ∃ o, adjust_offset off maxv c = some o ∧ o ≤ c ∧ c < o + maxv := by
  have hoff : off % 65536 = off := Nat.mod_eq_of_lt (by omega)
  unfold adjust_offset
  rw [hoff]
  by_cases h1 : c < off
  · refine ⟨c, ?_, le_refl c, by omega⟩
    rw [if_pos h1]
  · rw [if_neg h1, if_neg (by omega)]
    by_cases h2 : off + maxv ≤ c
    · refine ⟨c - maxv + 1, ?_, by omega, by omega⟩
      rw [if_pos h2]
    · refine ⟨off, ?_, by omega, by omega⟩
      rw [if_neg h2]

theorem search_aux_spec (query : List Key) (st : EditorState)
    (hq : query ≠ [])
    (hro : st.row_offset + st.max_row < 65536)
    (hco : st.col_offset + st.max_col < 65536)
    (hmr : 1 ≤ st.max_row) (hmc : 1 ≤ st.max_col) :
    ∀ (rs : List Row) (i : Nat), i + rs.length ≤ 65536 →
      (∀ r ∈ rs, r.raw.length ≤ 65536) →
      match search_aux query st rs i with
      | none => False
      | some none => ∀ r ∈ rs, find_subsequence r.raw query = none
      | some (some st') =>
        ∃ j r, rs[j]? = some r ∧ st'.cy = i + j ∧
          find_subsequence r.raw query = some st'.cx ∧
          (∀ j', j' < j → ∀ r', rs[j']? = some r' →
            find_subsequence r'.raw query = none) ∧
          st'.row_offset ≤ st'.cy ∧ st'.cy < st'.row_offset + st.max_row ∧
          st'.col_offset ≤ st'.cx ∧ st'.cx < st'.col_offset + st.max_col ∧
          st'.max_row = st.max_row ∧ st'.max_col = st.max_col := by
  intro rs
  induction rs with
  | nil =>
    intro i _ _
    simp [search_aux]
  | cons r rs ih =>
    intro i hlen hrow
    have hi : i < 65536 := by
      simp only [List.length_cons] at hlen
      omega
    cases hfind : find_subsequence r.raw query with
    | none =>
      have hrec := ih (i + 1) (by simp only [List.length_cons] at hlen; omega)
        (fun r' hr' => hrow r' (List.mem_cons_of_mem r hr'))
      simp only [search_aux, hfind]
      cases hres : search_aux query st rs (i + 1) with
      | none =>
        rw [hres] at hrec
        exact hrec
      | some o =>
        cases o with
        | none =>
          rw [hres] at hrec
          intro r' hr'
          rcases List.mem_cons.mp hr' with h | h
          · subst h; exact hfind
          · exact hrec r' h
        | some st' =>
          rw [hres] at hrec
          obtain ⟨j, rj, hj, hcy, hfd, hprev, h1, h2, h3, h4, h5, h6⟩ := hrec
          refine ⟨j + 1, rj, by simpa using hj, by omega, hfd, ?_, h1, h2, h3, h4, h5, h6⟩
          intro j' hj' r' hr'
          cases j' with
          | zero =>
            simp only [List.getElem?_cons_zero] at hr'
            cases hr'
            exact hfind
          | succ j'' =>
            simp only [List.getElem?_cons_succ] at hr'
            exact hprev j'' (by omega) r' hr'
    | some pos =>
      have hposlt : pos < r.raw.length :=
        find_subsequence_some_lt r.raw query pos hq hfind
      have hpos : pos < 65536 :=
        lt_of_lt_of_le hposlt (hrow r (List.mem_cons_self r rs))
      have hcy : i % 65536 = i := Nat.mod_eq_of_lt hi
      have hcx : pos % 65536 = pos := Nat.mod_eq_of_lt hpos
      obtain ⟨ro, hroEq, hro1, hro2⟩ :=
        adjust_offset_some st.row_offset st.max_row i hro hmr
      obtain ⟨co, hcoEq, hco1, hco2⟩ :=
        adjust_offset_some st.col_offset st.max_col pos hco hmc
      simp only [search_aux, hfind, hcy, hcx, hroEq, hcoEq]
      refine ⟨0, r, by simp, by simp, hfind, ?_, ?_, ?_, ?_, ?_, trivial, trivial⟩
      · intro j' hj' r' _
        omega
      · omega
      · omega
      · omega
      · omega

/-- C9: for a non-empty query, `Editor::search` scans rows in order for the
first exact contiguous match of the query among the raw key events; on a
match the cursor moves to that row and to the position of the match, with
both viewport offsets adjusted so the cursor is visible; when no row
matches, the not-found condition is signalled and no state field was
touched; and neither `u16` offset sum of the source overflows. Hypotheses
keep the `u16`-cast row index and match position in range, keep
`row_offset + max_row` and `col_offset + max_col` within `u16` (outside
that region the source itself traps in debug builds or wraps in release
builds), and make the viewport non-degenerate. -/
theorem editor_search_spec (rows : List Row) (query : List Key) (st : EditorState)
    (hq : query ≠ []) (hrows : rows.length ≤ 65536)
    (hrow : ∀ r ∈ rows, r.raw.length ≤ 65536)
    (hro : st.row_offset + st.max_row < 65536)
    (hco : st.col_offset + st.max_col < 65536)
    (hmr : 1 ≤ st.max_row) (hmc : 1 ≤ st.max_col) :
    searchSpec rows query st (Editor.search rows query st) := by
  have h := search_aux_spec query st hq hro hco hmr hmc rows 0 (by omega) hrow
  unfold Editor.search
  cases hres : search_aux query st rows 0 with
  | none =>
    rw [hres] at h
    exact h.elim
  | some o =>
    cases o with
    | none =>
      rw [hres] at h
      exact h
    | some st' =>
      rw [hres] at h
      obtain ⟨j, rj, hj, hcy, hfd, hprev, h1, h2, h3, h4, h5, h6⟩ := h
      have hcy' : st'.cy = j := by omega
      exact ⟨rj, by rw [hcy']; exact hj, hfd,
        fun j' hj' r' hr' => hprev j' (by omega) r' hr', h1, h2, h3, h4, h5, h6⟩

/-- Witness for C9: a two-row buffer where only the second row contains the
query; the search lands on row 1, column 0, inside the viewport. -/
theorem editor_search_spec_witness :
    searchSpec [Row.new 4 [Key.char 'a'], Row.new 4 [Key.char 'b']] [Key.char 'b']
      ⟨0, 0, 0, 0, 10, 10⟩
      (Editor.search [Row.new 4 [Key.char 'a'], Row.new 4 [Key.char 'b']] [Key.char 'b']
        ⟨0, 0, 0, 0, 10, 10⟩) :=
  editor_search_spec _ _ _ (by decide) (by decide) (by decide) (by decide)
    (by decide) (by decide) (by decide)

theorem renderedOf_length (tw : Nat) (ks : List Key) :
    (renderedOf tw ks).length = totalWidth tw ks := by
  unfold renderedOf totalWidth
  rw [List.length_flatten, List.map_map]
  rfl

theorem totalWidth_take_mono (tw : Nat) (ks : List Key) {m n : Nat} (h : m ≤ n) :
    totalWidth tw (ks.take m) ≤ totalWidth tw (ks.take n) := by
  have hle := totalWidth_take_le tw (ks.take n) m
  rwa [List.take_take, Nat.min_eq_left h] at hle

/-- The walk of `get_raw_index` is determined by any span certificate:
if position `p` lies inside the rendered span of the key at index `j`,
the walk returns `j`. -/
theorem getRawIndexAux_eq_of_span (tw p : Nat) :
    ∀ (ks : List Key) (i cur j : Nat) (k : Key), ks[j]? = some k →
      cur + totalWidth tw (ks.take j) ≤ p →
      p < cur + totalWidth tw (ks.take j) + k.get_display_width tw →
      getRawIndexAux tw p ks i cur = i + j := by
  intro ks
  induction ks with
  | nil =>
    intro i cur j k hj
    simp at hj
  | cons k0 ks ih =>
    intro i cur j k hj hlo hhi
    cases j with
    | zero =>
      simp only [List.getElem?_cons_zero, Option.some.injEq] at hj
      subst hj
      simp only [List.take_zero, totalWidth_nil] at hlo hhi
      rw [getRawIndexAux, if_pos (by omega)]
      omega
    | succ j' =>
      simp only [List.getElem?_cons_succ] at hj
      simp only [List.take_succ_cons, totalWidth_cons] at hlo hhi
      rw [getRawIndexAux, if_neg (by omega),
        ih (i + 1) (cur + k0.get_display_width tw) j' k hj (by omega) (by omega)]
      omega

theorem take_insertIdx_self {α : Type _} :
    ∀ (l : List α) (n : Nat) (a : α), n ≤ l.length →
      (l.insertIdx n a).take n = l.take n := by
  intro l
  induction l with
  | nil =>
    intro n a h
    have hn : n = 0 := by simpa using h
    subst hn
    rfl
  | cons b l ih =>
    intro n a h
    cases n with
    | zero => rfl
    | succ n' =>
      simp only [List.insertIdx_succ_cons, List.take_succ_cons]
      rw [ih n' a (by simpa using h)]

theorem getElem?_insertIdx_self {α : Type _} (l : List α) (n : Nat) (a : α)
    (h : n ≤ l.length) : (l.insertIdx n a)[n]? = some a := by
  have hlen : n < (l.insertIdx n a).length := by
    rw [List.length_insertIdx n l h]
    omega
  rw [List.getElem?_eq_getElem hlen, List.getElem_insertIdx_self l a n h]

/-- C7, amended: for a Row satisfying the rendered/raw invariant, inserting
an insertable key at a render-boundary (or append) position `pos` and then
calling `backspace` at `pos + width(key)` — the cursor position just after
the inserted key, where the editor's own cursor lands — removes exactly the
inserted key and restores both `raw` and `rendered`; `backspace` at the
*same* position `pos`, as the claim literally states, does not. -/
theorem insert_backspace_round_trip (tw : Nat) (r : Row) (k : Key) (pos : Nat)
    (hinv : r.rendered = renderedOf tw r.raw)
    (hk : ¬ k.render tw = [])
    (hpos : isBoundary tw r.raw pos ∨ r.rendered.length ≤ pos) :
    (Row.insert tw r pos k).2 = true ∧
    Row.backspace tw (Row.insert tw r pos k).1 (pos + k.get_display_width tw) =
      some (r, k.get_display_width tw) := by
  have hw1 : 1 ≤ k.get_display_width tw := by
    unfold Key.get_display_width
    exact List.length_pos.mpr hk
  by_cases hc : r.rendered.length ≤ pos
  · -- append path: the key goes to the end and `backspace` pops it back
    have hins : Row.insert tw r pos k =
        (⟨r.raw ++ [k], r.rendered ++ k.render tw⟩, true) := by
      unfold Row.insert
      rw [if_pos hc, if_neg hk]
    refine ⟨by rw [hins], ?_⟩
    rw [hins]
    unfold Row.backspace
    have hlen : (r.rendered ++ k.render tw).length ≤ pos + k.get_display_width tw := by
      simp only [List.length_append]
      unfold Key.get_display_width
      omega
    rw [if_pos hlen]
    simp only [List.getLast?_concat, List.dropLast_concat, List.length_append]
    have htake : (r.rendered ++ k.render tw).take
        (r.rendered.length + (k.render tw).length - k.get_display_width tw) =
        r.rendered := by
      unfold Key.get_display_width
      rw [Nat.add_sub_cancel]
      exact List.take_left r.rendered (k.render tw)
    rw [htake]
  · -- splice path: `pos` is a boundary strictly inside the row
    have hposb : isBoundary tw r.raw pos := hpos.resolve_right hc
    obtain ⟨bi, hbile, hbi⟩ := hposb
    have hlen : r.rendered.length = totalWidth tw r.raw := by
      rw [hinv, renderedOf_length]
    have hplt : pos < totalWidth tw r.raw := by omega
    obtain ⟨j, k0, hj, hres, hlo, hhi⟩ :=
      getRawIndexAux_span tw pos r.raw 0 0 (Nat.zero_le _) (by simpa using hplt)
    simp only [Nat.zero_add] at hres hlo hhi
    -- a boundary inside the span of key `j` must be the span's start
    have hpos_eq : pos = totalWidth tw (r.raw.take j) := by
      rcases Nat.le_total bi j with hbij | hbij
      · have := totalWidth_take_mono tw r.raw hbij
        omega
      · rcases Nat.eq_or_lt_of_le hbij with hbij' | hbij'
        · subst hbij'
          omega
        · have hsucc : j + 1 ≤ bi := hbij'
          have hmono := totalWidth_take_mono tw r.raw hsucc
          rw [totalWidth_take_succ tw r.raw j k0 hj] at hmono
          omega
    have hjlt : j < r.raw.length := by
      by_contra hge
      rw [List.getElem?_eq_none (by omega)] at hj
      exact Option.noConfusion hj
    have hjidx : r.get_raw_index tw pos = j := by
      unfold Row.get_raw_index
      omega
    have hins : Row.insert tw r pos k =
        (⟨r.raw.insertIdx j k,
          r.rendered.take pos ++ k.render tw ++ r.rendered.drop pos⟩, true) := by
      unfold Row.insert
      rw [if_neg hc, if_neg hk]
      simp only [hjidx]
    refine ⟨by rw [hins], ?_⟩
    rw [hins]
    have hALen : (r.rendered.take pos).length = pos := by
      rw [List.length_take]
      omega
    have hBLen : (k.render tw).length = k.get_display_width tw := rfl
    have hABLen : (r.rendered.take pos ++ k.render tw).length =
        pos + k.get_display_width tw := by
      rw [List.length_append, hALen, hBLen]
    have hr1len : (r.rendered.take pos ++ k.render tw ++ r.rendered.drop pos).length =
        r.rendered.length + k.get_display_width tw := by
      rw [List.length_append, List.length_append, hALen, hBLen, List.length_drop]
      omega
    have hj' : (r.raw.insertIdx j k)[j]? = some k :=
      getElem?_insertIdx_self r.raw j k (le_of_lt hjlt)
    have htakej : (r.raw.insertIdx j k).take j = r.raw.take j :=
      take_insertIdx_self r.raw j k (le_of_lt hjlt)
    have hidx' : getRawIndexAux tw (pos + k.get_display_width tw - 1)
        (r.raw.insertIdx j k) 0 0 = j := by
      have hlo' : 0 + totalWidth tw ((r.raw.insertIdx j k).take j) ≤
          pos + k.get_display_width tw - 1 := by
        rw [htakej]
        omega
      have hhi' : pos + k.get_display_width tw - 1 <
          0 + totalWidth tw ((r.raw.insertIdx j k).take j) + k.get_display_width tw := by
        rw [htakej]
        omega
      have := getRawIndexAux_eq_of_span tw (pos + k.get_display_width tw - 1)
        (r.raw.insertIdx j k) 0 0 j k hj' hlo' hhi'
      omega
    unfold Row.backspace
    rw [if_neg (by rw [hr1len]; omega), if_neg (by omega)]
    have hidxRow : Row.get_raw_index tw
        ⟨r.raw.insertIdx j k, r.rendered.take pos ++ k.render tw ++ r.rendered.drop pos⟩
        (pos + k.get_display_width tw - 1) = j := by
      unfold Row.get_raw_index
      exact hidx'
    have hget : Row.get_render_index tw
        ⟨r.raw.insertIdx j k, r.rendered.take pos ++ k.render tw ++ r.rendered.drop pos⟩
        j = some (pos, pos + k.get_display_width tw) := by
      unfold Row.get_render_index
      simp only [hj', htakej, ← hpos_eq]
    simp only [hidxRow, hget]
    rw [if_pos (by rw [hr1len]; omega)]
    have hraw : (r.raw.insertIdx j k).eraseIdx j = r.raw := List.eraseIdx_insertIdx j r.raw
    have htakefin : (r.rendered.take pos ++ k.render tw ++ r.rendered.drop pos).take pos =
        r.rendered.take pos := by
      rw [List.take_append_of_le_length (by rw [hABLen]; omega),
        List.take_append_of_le_length (by rw [hALen]),
        List.take_take, Nat.min_self]
    have hdropfin : (r.rendered.take pos ++ k.render tw ++ r.rendered.drop pos).drop
        (pos + k.get_display_width tw) = r.rendered.drop pos :=
      List.drop_left' hABLen
    simp only [hraw, htakefin, hdropfin, List.take_append_drop, Nat.add_sub_cancel_left]

/-- Witness for C7's amended theorem: inserting `'x'` at boundary position 1
of the two-character row `"ab"` and backspacing at `1 + 1 = 2` restores the
row, and the insert reports success. -/
theorem insert_backspace_round_trip_witness :
    (Row.insert 4 ⟨[Key.char 'a', Key.char 'b'], ['a', 'b']⟩ 1 (Key.char 'x')).2 = true ∧
    Row.backspace 4
        (Row.insert 4 ⟨[Key.char 'a', Key.char 'b'], ['a', 'b']⟩ 1 (Key.char 'x')).1
        (1 + (Key.char 'x').get_display_width 4) =
      some (⟨[Key.char 'a', Key.char 'b'], ['a', 'b']⟩, (Key.char 'x').get_display_width 4) :=
  insert_backspace_round_trip 4 ⟨[Key.char 'a', Key.char 'b'], ['a', 'b']⟩ (Key.char 'x') 1
    (by decide) (by decide) (Or.inl ⟨1, by decide⟩)

end Fim
